import Mathlib

/-!
Verification of the umlens UML class-diagram analyser.

This file gives a shallow embedding, in Lean 4, of the parts of the
umlens code base that the checked properties talk about:

* the diagram data model (`app/uml/model.py`): elements, classes,
  attributes, methods, relationships, and the indexed diagram queries
  (`relationships`, `related_classes`, `sub_classes`, `super_classes`,
  `interfaces`, `ancestors`, `inheritance_depth`, `methods`);
* the cycle finder (`app/cycle/finder.py` and `app/cycle/search.py`):
  rotation-invariant cycle equality and hashing, breadth-first search
  with parent pointers, cycle extraction and memoisation;
* the ratio metric (`app/metric/model.py`);
* the singleton matcher (`app/pattern/matcher.py`);
* pattern value equality and finder deduplication
  (`app/pattern/finder.py`; the pattern value class itself is absent
  from the sources and is modelled from the specification).

Python classes are embedded as Lean structures; element identity,
which in the source is equality of `identifier` strings, is embedded
by referring to classes through their identifier strings.  Iterators
become lists, Python sets become lists queried only up to membership,
and `raise` becomes `Except`.
-/

namespace UMLens

/-- Scope of an attribute or method (`Scope` in `app/uml/model.py`). -/
inductive Scope where
  | cls
  | inst
deriving DecidableEq, Repr

/-- Relationship kinds (`RelType` in `app/uml/model.py`).  The source
uses a `Flag`; the flag constants used by the queries are embedded as
lists of base kinds below. -/
inductive RelType where
  | association
  | dependency
  | generalization
  | realization
deriving DecidableEq, Repr

/-- Relationship role of a class (`RelRole` in `app/uml/model.py`). -/
inductive RelRole where
  | lhs
  | rhs
  | any
deriving DecidableEq, Repr

/-- A function parameter (`Parameter`).  The datatype is an optional
datatype identifier, as produced by the reader. -/
structure Parameter where
  identifier : String
  name : String
  datatype : Option String
deriving DecidableEq, Repr

/-- A class attribute (`Attribute`): typed element plus scope. -/
structure Attribute where
  identifier : String
  name : String
  datatype : Option String
  scope : Scope
deriving DecidableEq, Repr

/-- A method (`Method`): scope, abstract flag, parameter list and
optional return type (a datatype identifier). -/
structure Method where
  identifier : String
  name : String
  scope : Scope
  abstract : Bool
  parameters : List Parameter
  return_type : Option String
deriving DecidableEq, Repr

/-- A class (`Class`): element data plus abstract flag, attribute list
and method list.  Equality of classes in the source is equality of
identifiers, so diagram queries below traffic in identifiers. -/
structure Class where
  identifier : String
  name : String
  abstract : Bool
  attributes : List Attribute
  methods : List Method
deriving DecidableEq, Repr

/-- A relationship (`Relationship`): kind and the two endpoint classes,
referenced by identifier (`from_cls`, `to_cls`). -/
structure Relationship where
  identifier : String
  rel_type : RelType
  from_cls : String
  to_cls : String
deriving DecidableEq, Repr

/-- A class diagram (`Diagram`).  `classes` is the insertion-ordered
list of class elements; `rels` the relationships.  The per-class
incidence sets maintained by `add_relationship` are recovered by
filtering `rels` on the endpoints. -/
structure Diagram where
  classes : List Class
  rels : List Relationship
deriving DecidableEq, Repr

/-- Source `Element.__init__`: constructing an element with a falsy (empty)
identifier or name raises `ValueError('Invalid falsy value.')`;
otherwise both strings are stored unchanged. -/
structure Element where
  identifier : String
  name : String
deriving DecidableEq, Repr

/-- Embedding of `Element.__init__` as a fallible constructor. -/
def Element.make (identifier name : String) : Except String Element :=
  if identifier = "" ∨ name = "" then
    Except.error "Invalid falsy value."
  else
    Except.ok { identifier := identifier, name := name }

/-- Source `Class.__init__` delegates identifier and name validation to
`Element.__init__` via `super().__init__`. -/
def Class.make (identifier name : String) (abstract : Bool)
    (attributes : List Attribute) (methods : List Method) :
    Except String Class :=
  match Element.make identifier name with
  | Except.error e => Except.error e
  | Except.ok el =>
      Except.ok { identifier := el.identifier, name := el.name,
                  abstract := abstract, attributes := attributes,
                  methods := methods }

/-- Source `RelType.to_string`: the flag name lowercased then
capitalized, giving the relationship's element name. -/
def RelType.to_string : RelType → String
  | RelType.association => "Association"
  | RelType.dependency => "Dependency"
  | RelType.generalization => "Generalization"
  | RelType.realization => "Realization"

/-- Source `Relationship.__init__` supplies no name of its own: it
validates through `Element.__init__` with `name = rel_type.to_string()`
(never empty), so only an empty identifier can be rejected. -/
def Relationship.make (identifier : String) (rel_type : RelType)
    (from_cls to_cls : String) : Except String Relationship :=
  match Element.make identifier rel_type.to_string with
  | Except.error e => Except.error e
  | Except.ok el =>
      Except.ok { identifier := el.identifier, rel_type := rel_type,
                  from_cls := from_cls, to_cls := to_cls }

end UMLens

namespace UMLens

/-- Constant `sys.float_info.epsilon`: the machine epsilon of binary64, 2^(-52),
embedded as an exact rational (`metric_eps` in `app/metric/model.py`). -/
def metric_eps : ℚ := mkRat 1 (2 ^ 52)

/-- Metric values: a finite numeric value, or the float infinity
`metric_inf` returned on division by a negligible denominator. -/
inductive MetricValue where
  | val (q : ℚ)
  | inf
deriving DecidableEq, Repr

/-- Source `RatioMetric.value`: return 0.0 when the numerator is at most the
machine epsilon, `metric_inf` when (otherwise) the denominator is at
most the machine epsilon, and the exact quotient otherwise.  The
numerator and denominator metric values reaching this code are finite
numbers, embedded as rationals. -/
def ratioValue (num den : ℚ) : MetricValue :=
  if num ≤ metric_eps then
    MetricValue.val 0
  else if den ≤ metric_eps then
    MetricValue.inf
  else
    MetricValue.val (num / den)

end UMLens

namespace UMLens

/-- Claim C8 helper: characterisation of `Element.make`. -/
theorem element_make_error_iff (i n : String) :
    (∃ e, Element.make i n = Except.error e) ↔ i = "" ∨ n = "" := by
  unfold Element.make
  by_cases h : i = "" ∨ n = ""
  · simp [h]
  · simp [h]

/-- Claim C8 helper: success stores the strings unchanged. -/
theorem element_make_ok (i n : String) (hi : i ≠ "") (hn : n ≠ "") :
    Element.make i n = Except.ok { identifier := i, name := n } := by
  unfold Element.make
  simp [hi, hn]

end UMLens

namespace UMLens

/-- **C8.** Constructing a diagram `Element` fails with the
invalid-value error iff the supplied identifier or name is empty, and
succeeds storing both unchanged otherwise; the `Class` constructor,
which validates through the `Element` one, behaves the same way
(`Stereotype`, `Package` and `Method` delegate identically), and the
`Relationship` constructor, whose name is the never-empty
`rel_type.to_string()`, rejects exactly the empty identifier. -/
theorem claim_C8_element_construction :
    (∀ i n : String,
      ((∃ e, Element.make i n = Except.error e) ↔ i = "" ∨ n = "")) ∧
    (∀ i n : String, i ≠ "" → n ≠ "" →
      Element.make i n = Except.ok { identifier := i, name := n }) ∧
    (∀ i n a atts ms,
      ((∃ e, Class.make i n a atts ms = Except.error e) ↔ i = "" ∨ n = "")) ∧
    (∀ i n a atts ms, i ≠ "" → n ≠ "" →
      Class.make i n a atts ms =
        Except.ok { identifier := i, name := n, abstract := a,
                    attributes := atts, methods := ms }) ∧
    (∀ i rt fc tc,
      ((∃ e, Relationship.make i rt fc tc = Except.error e) ↔ i = "")) := by
  refine ⟨element_make_error_iff, element_make_ok, ?_, ?_, ?_⟩
  · intro i n a atts ms
    unfold Class.make
    by_cases h : i = "" ∨ n = ""
    · rw [← element_make_error_iff i n] at h
      obtain ⟨e, he⟩ := h
      rw [he]
      constructor
      · intro _
        rw [← element_make_error_iff i n]
        exact ⟨e, he⟩
      · intro _
        exact ⟨e, rfl⟩
    · have hi : i ≠ "" := fun hc => h (Or.inl hc)
      have hn : n ≠ "" := fun hc => h (Or.inr hc)
      rw [element_make_ok i n hi hn]
      simp [h]
  · intro i n a atts ms hi hn
    unfold Class.make
    rw [element_make_ok i n hi hn]
  · intro i rt fc tc
    have hname : rt.to_string ≠ "" := by
      cases rt <;> decide
    unfold Relationship.make
    by_cases hi : i = ""
    · have herr := (element_make_error_iff i rt.to_string).mpr (Or.inl hi)
      obtain ⟨e, he⟩ := herr
      rw [he]
      exact ⟨fun _ => hi, fun _ => ⟨e, rfl⟩⟩
    · rw [element_make_ok i rt.to_string hi hname]
      constructor
      · rintro ⟨e, he⟩
        cases he
      · intro h
        exact absurd h hi

/-- **C8 witness.** The characterisation applied at concrete inputs:
empty name rejected, non-empty data accepted unchanged. -/
theorem claim_C8_element_construction_witness :
    (∃ e, Element.make "id1" "" = Except.error e) ∧
    Element.make "id1" "A" = Except.ok { identifier := "id1", name := "A" } :=
  ⟨(claim_C8_element_construction.1 "id1" "").mpr (Or.inr rfl),
   claim_C8_element_construction.2.1 "id1" "A" (by decide) (by decide)⟩

/-- **C4.** `RatioMetric.value` with numerator value `N` and denominator
value `D`: if `N ≤ eps` (machine epsilon) the value is 0.0; otherwise if
`D ≤ eps` it is positive infinity; otherwise it is `N / D`. -/
theorem claim_C4_ratio_metric_value :
    ∀ num den : ℚ,
      (num ≤ metric_eps → ratioValue num den = MetricValue.val 0) ∧
      (¬ num ≤ metric_eps → den ≤ metric_eps →
        ratioValue num den = MetricValue.inf) ∧
      (¬ num ≤ metric_eps → ¬ den ≤ metric_eps →
        ratioValue num den = MetricValue.val (num / den)) := by
  intro num den
  refine ⟨fun h => ?_, fun hn hd => ?_, fun hn hd => ?_⟩
  · simp [ratioValue, h]
  · simp [ratioValue, hn, hd]
  · simp [ratioValue, hn, hd]

/-- **C4 witness.** The three branches exercised at concrete metric
values 0, (1, 0) and (1, 2). -/
theorem claim_C4_ratio_metric_value_witness :
    ratioValue 0 5 = MetricValue.val 0 ∧
    ratioValue 1 0 = MetricValue.inf ∧
    ratioValue 1 2 = MetricValue.val (1 / 2) :=
  ⟨(claim_C4_ratio_metric_value 0 5).1 (by decide),
   (claim_C4_ratio_metric_value 1 0).2.1 (by decide) (by decide),
   (claim_C4_ratio_metric_value 1 2).2.2 (by decide) (by decide)⟩

end UMLens

namespace UMLens

/-- Flag constant `RelType.GENERALIZATION` as a base-kind list. -/
def genKind : List RelType := [RelType.generalization]

/-- Flag constant `RelType.REALIZATION` as a base-kind list. -/
def realKind : List RelType := [RelType.realization]

/-- Flag constant `RelType.DEPENDENCY` as a base-kind list. -/
def depKind : List RelType := [RelType.dependency]

/-- Source `Diagram.relationships(cls, kind, role, match)`: the indexed
relationship set of `cls` (the relationships with `cls` on either
end), then filtered by flag membership of the kind, by the role of
`cls` (`LHS`: `from_cls == cls`; `RHS`: `to_cls == cls`; `ANY`: no
filter) and by the optional match predicate. -/
def Diagram.relationships (d : Diagram) (c : String)
    (kind : Option (List RelType)) (role : RelRole)
    (mtch : Option (Relationship → Bool)) : List Relationship :=
  let rel := d.rels.filter (fun r => r.from_cls == c || r.to_cls == c)
  let rel := match kind with
    | none => rel
    | some k => rel.filter (fun r => k.contains r.rel_type)
  let rel := match role with
    | RelRole.lhs => rel.filter (fun r => r.from_cls == c)
    | RelRole.rhs => rel.filter (fun r => r.to_cls == c)
    | RelRole.any => rel
  match mtch with
  | none => rel
  | some m => rel.filter m

/-- Source `Diagram.related_classes`: the other endpoint of each matching
relationship (`r.to_cls if r.from_cls == cls else r.from_cls`). -/
def Diagram.related_classes (d : Diagram) (c : String)
    (kind : Option (List RelType)) (role : RelRole)
    (mtch : Option (Relationship → Bool)) : List String :=
  (d.relationships c kind role mtch).map
    (fun r => if r.from_cls == c then r.to_cls else r.from_cls)

/-- Source `Diagram.sub_classes`: related classes for Generalization with the
anchor in the LHS role. -/
def Diagram.sub_classes (d : Diagram) (c : String)
    (mtch : Option (Relationship → Bool)) : List String :=
  d.related_classes c (some genKind) RelRole.lhs mtch

/-- Source `Diagram.super_classes`: related classes for Generalization with
the anchor in the RHS role. -/
def Diagram.super_classes (d : Diagram) (c : String)
    (mtch : Option (Relationship → Bool)) : List String :=
  d.related_classes c (some genKind) RelRole.rhs mtch

/-- Source `Diagram.interfaces`: related classes for Realization with the
anchor in the RHS role. -/
def Diagram.interfaces (d : Diagram) (c : String)
    (mtch : Option (Relationship → Bool)) : List String :=
  d.related_classes c (some realKind) RelRole.rhs mtch

/-- Modelled from the spec: the output claim C1 ascribes to
`sub_classes(c)` — the `from_cls` endpoints of the Generalization
relationships whose `to_cls` is `c`. -/
def specSubClasses (d : Diagram) (c : String) : List String :=
  (d.rels.filter (fun r =>
    r.rel_type == RelType.generalization && r.to_cls == c)).map
    Relationship.from_cls

/-- A bare class with no members, used to build concrete diagrams. -/
def plainClass (i : String) : Class :=
  { identifier := i, name := i, abstract := false,
    attributes := [], methods := [] }

/-- Concrete diagram for claim C1: classes A and B and a single
Generalization relationship with `from_cls = A`, `to_cls = B`. -/
def diagramC1 : Diagram :=
  { classes := [plainClass "A", plainClass "B"],
    rels := [{ identifier := "g1",
               rel_type := RelType.generalization,
               from_cls := "A", to_cls := "B" }] }

end UMLens

namespace UMLens

/-- List computation behind `related_classes` in the LHS role: the
role filter (`from_cls == c`) subsumes the incidence filter, and the
other endpoint is always `to_cls`. -/
theorem related_classes_lhs_eq (d : Diagram) (c : String) (k : List RelType) :
    d.related_classes c (some k) RelRole.lhs none =
      (d.rels.filter (fun r =>
        k.contains r.rel_type && r.from_cls == c)).map Relationship.to_cls := by
  unfold Diagram.related_classes Diagram.relationships
  induction d.rels with
  | nil => rfl
  | cons r rs ih =>
      by_cases hf : r.from_cls = c
      · by_cases hk : k.contains r.rel_type <;>
          simp_all [List.filter_cons, hf]
      · have hf' : (r.from_cls == c) = false := beq_eq_false_iff_ne.mpr hf
        by_cases ht : r.to_cls = c
        · by_cases hk : k.contains r.rel_type <;>
            simp_all [List.filter_cons, hf', ht]
        · have ht' : (r.to_cls == c) = false := beq_eq_false_iff_ne.mpr ht
          simp_all [List.filter_cons, hf', ht']

/-- List computation behind `related_classes` in the RHS role. -/
theorem related_classes_rhs_eq (d : Diagram) (c : String) (k : List RelType) :
    d.related_classes c (some k) RelRole.rhs none =
      (d.rels.filter (fun r =>
        k.contains r.rel_type && r.to_cls == c)).map
        (fun r => if r.from_cls == c then r.to_cls else r.from_cls) := by
  unfold Diagram.related_classes Diagram.relationships
  induction d.rels with
  | nil => rfl
  | cons r rs ih =>
      by_cases ht : r.to_cls = c
      · by_cases hk : k.contains r.rel_type <;>
          simp_all [List.filter_cons, ht]
      · have ht' : (r.to_cls == c) = false := beq_eq_false_iff_ne.mpr ht
        by_cases hf : r.from_cls = c
        · by_cases hk : k.contains r.rel_type <;>
            simp_all [List.filter_cons, hf, ht']
        · have hf' : (r.from_cls == c) = false := beq_eq_false_iff_ne.mpr hf
          simp_all [List.filter_cons, hf', ht']

end UMLens

namespace UMLens

/-- **C1 counterexample.** On the diagram with one Generalization
relationship from A to B, `sub_classes(A)` yields `[B]` (the `to_cls`
endpoint of the relationship leaving A), not the `from_cls` endpoints
of relationships arriving at A, which would be empty; so the claimed
description of `sub_classes` is false on the code. -/
theorem claim_C1_counterexample :
    Diagram.sub_classes diagramC1 "A" none = ["B"] ∧
    specSubClasses diagramC1 "A" = [] ∧
    Diagram.sub_classes diagramC1 "A" none ≠ specSubClasses diagramC1 "A" := by
  refine ⟨by decide, by decide, by decide⟩

/-- **C1 (amended).** `sub_classes(c)` yields exactly the `to_cls`
endpoints of the Generalization relationships whose `from_cls` is `c`,
and `super_classes(c)` yields exactly the `from_cls` endpoints of the
Generalization relationships whose `to_cls` is `c`: the code orients
Generalization with `from_cls` the superclass and `to_cls` the
subclass, so downward traversal follows the LHS role. -/
theorem claim_C1_sub_super_classes (d : Diagram) (c : String) :
    Diagram.sub_classes d c none =
      (d.rels.filter (fun r =>
        r.rel_type == RelType.generalization && r.from_cls == c)).map
        Relationship.to_cls ∧
    Diagram.super_classes d c none =
      (d.rels.filter (fun r =>
        r.rel_type == RelType.generalization && r.to_cls == c)).map
        Relationship.from_cls := by
  constructor
  · rw [Diagram.sub_classes, related_classes_lhs_eq]
    congr 1
    apply List.filter_congr
    intro r _
    cases hr : r.rel_type <;> simp [genKind, hr]
  · rw [Diagram.super_classes, related_classes_rhs_eq]
    have hfilter :
        d.rels.filter (fun r => genKind.contains r.rel_type && r.to_cls == c) =
          d.rels.filter (fun r =>
            r.rel_type == RelType.generalization && r.to_cls == c) := by
      apply List.filter_congr
      intro r _
      cases hr : r.rel_type <;> simp [genKind, hr]
    rw [hfilter]
    apply List.map_congr_left
    intro r hr
    simp only [List.mem_filter, Bool.and_eq_true, beq_iff_eq] at hr
    by_cases hf : r.from_cls = c
    · simp [hf, hr.2.2]
    · simp [beq_eq_false_iff_ne.mpr hf]

end UMLens

namespace UMLens

/-- A dependency cycle (`Cycle` in `app/cycle/finder.py`): the ordered
list of involved classes, referenced by identifier. -/
structure Cycle where
  involved_classes : List String
deriving DecidableEq, Repr

/-- Source `Cycle.__eq__`: cyclic equality.  Differing lengths are unequal;
zero length is equal; otherwise the involved-class list of `other` is
compared elementwise against every length-n window of the doubled list
`self.involved_classes * 2` starting at x < n (the inner loop matches
`other[z]` against `new_list[y]` for y in [x, x+n), breaking on the
first mismatch and succeeding when z reaches n, i.e. exactly when the
window equals `other.involved_classes`). -/
def Cycle.eq (self other : Cycle) : Bool :=
  if self.involved_classes.length ≠ other.involved_classes.length then
    false
  else
    let cls_len := self.involved_classes.length
    if cls_len = 0 then
      true
    else
      let new_list := self.involved_classes ++ self.involved_classes
      (List.range cls_len).any (fun x =>
        other.involved_classes == (new_list.drop x).take cls_len)

/-- Source `Cycle.__hash__`: exclusive-or fold of the member class hashes,
with the per-class hash function abstracted (`h` stands for Python's
string hash applied to the class identifier). -/
def Cycle.hashVal (h : String → Nat) (self : Cycle) : Nat :=
  self.involved_classes.foldl (fun hval cls => hval ^^^ h cls) 0

/-- The length-n window of the doubled list starting at x ≤ n is the
left rotation by x. -/
theorem window_eq_rotate (l : List String) (x : Nat) (hx : x ≤ l.length) :
    ((l ++ l).drop x).take l.length = l.rotate x := by
  rw [List.rotate_eq_drop_append_take hx]
  rw [List.drop_append_of_le_length hx]
  rw [List.take_append_eq_append_take]
  have hlen : (l.drop x).length = l.length - x := List.length_drop x l
  rw [List.take_of_length_le (by rw [hlen]; omega)]
  rw [hlen, Nat.sub_sub_self hx]

/-- Claim C2 helper: `Cycle.__eq__` holds exactly when the second
cycle's class list is a rotation of the first's. -/
theorem cycle_eq_iff_rotate (a b : Cycle) :
    Cycle.eq a b = true ↔
      ∃ k, b.involved_classes = a.involved_classes.rotate k := by
  unfold Cycle.eq
  by_cases hlen : a.involved_classes.length = b.involved_classes.length
  · rw [if_neg (fun hne => hne hlen)]
    by_cases hnil : a.involved_classes.length = 0
    · have ha : a.involved_classes = [] := List.length_eq_zero.mp hnil
      have hb : b.involved_classes = [] :=
        List.length_eq_zero.mp (hlen ▸ hnil)
      rw [if_pos hnil]
      simp [ha, hb]
    · rw [if_neg hnil]
      rw [List.any_eq_true]
      constructor
      · rintro ⟨x, hx, hwin⟩
        rw [List.mem_range] at hx
        rw [beq_iff_eq] at hwin
        refine ⟨x, ?_⟩
        rw [hwin, window_eq_rotate _ _ (le_of_lt hx)]
      · rintro ⟨k, hk⟩
        have hpos : 0 < a.involved_classes.length := Nat.pos_of_ne_zero hnil
        refine ⟨k % a.involved_classes.length,
          List.mem_range.mpr (Nat.mod_lt _ hpos), ?_⟩
        rw [beq_iff_eq]
        rw [window_eq_rotate _ _ (le_of_lt (Nat.mod_lt _ hpos))]
        rw [List.rotate_mod, hk]
  · rw [if_pos hlen]
    constructor
    · intro h
      exact absurd h (by simp)
    · rintro ⟨k, hk⟩
      have : b.involved_classes.length = a.involved_classes.length := by
        rw [hk, List.length_rotate]
      exact absurd this.symm hlen

/-- Claim C2 helper: the exclusive-or fold is invariant under list
permutation, hence under rotation. -/
theorem cycle_hash_eq_of_eq (h : String → Nat) (a b : Cycle)
    (heq : Cycle.eq a b = true) :
    Cycle.hashVal h a = Cycle.hashVal h b := by
  obtain ⟨k, hk⟩ := (cycle_eq_iff_rotate a b).mp heq
  unfold Cycle.hashVal
  rw [hk]
  have hperm : List.Perm (a.involved_classes.rotate k) a.involved_classes :=
    List.rotate_perm a.involved_classes k
  exact (hperm.foldl_eq' (fun x _ y _ z => by
    show z ^^^ h x ^^^ h y = z ^^^ h y ^^^ h x
    rw [Nat.xor_assoc, Nat.xor_assoc, Nat.xor_comm (h x) (h y)]) 0).symm

end UMLens

namespace UMLens

/-- **C2.** `Cycle.__eq__` holds iff the involved-class list of the
second cycle is a rotation of the first's (so a reversed, non-rotated
list such as the reverse of a three-element cycle of distinct classes
is not equal); `Cycle.__hash__` is the exclusive-or fold of the member
class hashes, and rotation-equal cycles therefore hash equal. -/
theorem claim_C2_cycle_eq_rotation_hash :
    (∀ a b : Cycle,
      (Cycle.eq a b = true ↔
        ∃ k, b.involved_classes = a.involved_classes.rotate k)) ∧
    (∀ (h : String → Nat) (a : Cycle),
      Cycle.hashVal h a =
        a.involved_classes.foldl (fun hval cls => hval ^^^ h cls) 0) ∧
    (Cycle.eq { involved_classes := ["a", "b", "c"] }
      { involved_classes := ["c", "b", "a"] } = false) ∧
    (∀ (h : String → Nat) (a b : Cycle), Cycle.eq a b = true →
      Cycle.hashVal h a = Cycle.hashVal h b) :=
  ⟨cycle_eq_iff_rotate, fun _ _ => rfl, by decide, cycle_hash_eq_of_eq⟩

/-- **C2 witness.** The hash-invariance part applied to the concrete
rotation-equal cycles [x, y] and [y, x] with the length hash. -/
theorem claim_C2_cycle_eq_rotation_hash_witness :
    Cycle.hashVal String.length { involved_classes := ["xx", "y"] } =
      Cycle.hashVal String.length { involved_classes := ["y", "xx"] } :=
  claim_C2_cycle_eq_rotation_hash.2.2.2 String.length
    { involved_classes := ["xx", "y"] }
    { involved_classes := ["y", "xx"] } (by decide)

end UMLens

namespace UMLens

/-- The Singleton pattern value (`Singleton(cls, attribute, method)`),
recording the anchor class identifier and the selected members. -/
structure Singleton where
  cls : String
  attr : Attribute
  method : Method
deriving DecidableEq, Repr

/-- Eligibility of an attribute in `SingletonMatcher.match`: class
scope and datatype equal to the anchor class (element equality is by
identifier; a missing datatype compares unequal). -/
def singletonAttrOk (cls : Class) (a : Attribute) : Bool :=
  a.scope == Scope.cls && a.datatype == some cls.identifier

/-- Eligibility of a method in `SingletonMatcher.match`: class scope,
no parameters, return type equal to the anchor class. -/
def singletonMethodOk (cls : Class) (m : Method) : Bool :=
  m.scope == Scope.cls && m.parameters.isEmpty &&
    m.return_type == some cls.identifier

/-- Source `SingletonMatcher.match(dg, cls)`: take the first eligible
attribute (`next(eligible, None)`); if none, yield nothing; otherwise
take the first eligible method; if found, yield the single
`Singleton(cls, attribute, method)`.  The diagram argument is unused
by the source matcher. -/
def singletonMatch (dg : Diagram) (cls : Class) : List Singleton :=
  match cls.attributes.find? (singletonAttrOk cls) with
  | none => []
  | some a =>
      match cls.methods.find? (singletonMethodOk cls) with
      | none => []
      | some method =>
          [{ cls := cls.identifier, attr := a,
             method := method }]

/-- Predicate: `x` is the first element of `l` satisfying `p`. -/
def IsFirst {α : Type} (l : List α) (p : α → Bool) (x : α) : Prop :=
  ∃ l1 l2, l = l1 ++ x :: l2 ∧ p x = true ∧ ∀ y ∈ l1, p y = false

/-- Claim C7 helper: `find?` returns exactly the first satisfying
element. -/
theorem find?_iff_isFirst {α : Type} (l : List α) (p : α → Bool) (x : α) :
    l.find? p = some x ↔ IsFirst l p x := by
  rw [List.find?_eq_some]
  unfold IsFirst
  constructor
  · rintro ⟨hp, l1, l2, rfl, hfirst⟩
    exact ⟨l1, l2, rfl, hp, fun y hy => by simpa using hfirst y hy⟩
  · rintro ⟨l1, l2, rfl, hp, hfirst⟩
    exact ⟨hp, l1, l2, rfl, fun y hy => by simp [hfirst y hy]⟩

end UMLens

namespace UMLens

/-- **C7.** `SingletonMatcher.match(d, c)` emits exactly one
`Singleton(c, a, m)` — with `a` the first attribute of `c` of class
scope and datatype equal to `c`, and `m` the first method of `c` of
class scope with no parameters and return type equal to `c` — iff both
such an attribute and such a method exist; otherwise it emits
nothing. -/
theorem claim_C7_singleton_matcher (dg : Diagram) (cls : Class) :
    ((∃ a ∈ cls.attributes, singletonAttrOk cls a = true) ∧
     (∃ m ∈ cls.methods, singletonMethodOk cls m = true) →
      ∃ a m, IsFirst cls.attributes (singletonAttrOk cls) a ∧
        IsFirst cls.methods (singletonMethodOk cls) m ∧
        singletonMatch dg cls =
          [{ cls := cls.identifier, attr := a, method := m }]) ∧
    (¬ ((∃ a ∈ cls.attributes, singletonAttrOk cls a = true) ∧
        (∃ m ∈ cls.methods, singletonMethodOk cls m = true)) →
      singletonMatch dg cls = []) := by
  constructor
  · rintro ⟨ha, hm⟩
    have ha2 : cls.attributes.find? (singletonAttrOk cls) ≠ none := by
      rw [ne_eq, List.find?_eq_none]
      push_neg
      obtain ⟨a, haMem, haOk⟩ := ha
      exact ⟨a, haMem, haOk⟩
    have hm2 : cls.methods.find? (singletonMethodOk cls) ≠ none := by
      rw [ne_eq, List.find?_eq_none]
      push_neg
      obtain ⟨m, hmMem, hmOk⟩ := hm
      exact ⟨m, hmMem, hmOk⟩
    obtain ⟨a, hafind⟩ := Option.ne_none_iff_exists'.mp ha2
    obtain ⟨m, hmfind⟩ := Option.ne_none_iff_exists'.mp hm2
    refine ⟨a, m, (find?_iff_isFirst _ _ _).mp hafind,
      (find?_iff_isFirst _ _ _).mp hmfind, ?_⟩
    unfold singletonMatch
    rw [hafind, hmfind]
  · intro hno
    unfold singletonMatch
    rcases Decidable.not_and_iff_or_not.mp hno with h | h
    · have : cls.attributes.find? (singletonAttrOk cls) = none := by
        rw [List.find?_eq_none]
        intro x hx hpx
        exact h ⟨x, hx, hpx⟩
      rw [this]
    · have : cls.methods.find? (singletonMethodOk cls) = none := by
        rw [List.find?_eq_none]
        intro x hx hpx
        exact h ⟨x, hx, hpx⟩
      rw [this]
      cases cls.attributes.find? (singletonAttrOk cls) <;> rfl

/-- Concrete singleton class: class-scope attribute typed by the class
itself and a class-scope parameterless method returning it. -/
def singletonClass : Class :=
  { identifier := "S", name := "S", abstract := false,
    attributes := [{ identifier := "a1", name := "instance",
                     datatype := some "S", scope := Scope.cls }],
    methods := [{ identifier := "m1", name := "get", scope := Scope.cls,
                  abstract := false, parameters := [],
                  return_type := some "S" }] }

/-- **C7 witness.** The matcher emits the singleton for the concrete
class above, and emits nothing for a bare class. -/
theorem claim_C7_singleton_matcher_witness :
    (∃ a m, IsFirst singletonClass.attributes (singletonAttrOk singletonClass) a ∧
      IsFirst singletonClass.methods (singletonMethodOk singletonClass) m ∧
      singletonMatch { classes := [singletonClass], rels := [] } singletonClass =
        [{ cls := "S", attr := a, method := m }]) ∧
    singletonMatch { classes := [plainClass "P"], rels := [] } (plainClass "P") = [] :=
  ⟨(claim_C7_singleton_matcher { classes := [singletonClass], rels := [] }
      singletonClass).1
    (by decide),
   (claim_C7_singleton_matcher { classes := [plainClass "P"] , rels := [] }
      (plainClass "P")).2
    (by rintro ⟨⟨a, ha, _⟩, _⟩; simp [plainClass] at ha)⟩

end UMLens

namespace UMLens

/-- The closed family of pattern kinds. -/
inductive PatternKind where
  | abstractFactory
  | adapter
  | bridge
  | composite
  | decorator
  | facade
  | factoryMethod
  | prototype
  | proxy
  | singleton
deriving DecidableEq, Repr

/-- A field of a pattern value: a class (compared by identifier), an
order-significant list of classes, or a method. -/
inductive PatternField where
  | clsRef (identifier : String)
  | clsList (identifiers : List String)
  | methodRef (identifier : String)
deriving DecidableEq, Repr

/-- Modelled from the spec: the Pattern value class of
`app/pattern/model.py` is imported by the finder and the matchers but
is not among the sources; per the spec a pattern value is its kind
together with its tuple of fields. -/
structure Pattern where
  kind : PatternKind
  fields : List PatternField
deriving DecidableEq, Repr

/-- Modelled from the spec: pattern equality — same kind and same
field tuple, classes compared by identifier and lists elementwise in
order. -/
def Pattern.eq (p q : Pattern) : Bool :=
  p.kind == q.kind && p.fields == q.fields

/-- Modelled from the spec: hashing is consistent with equality — the
hash is a function of the kind and the field tuple only (the combining
functions abstract Python's hashing of the components). -/
def Pattern.hashVal (hk : PatternKind → Nat) (hf : List PatternField → Nat)
    (p : Pattern) : Nat :=
  hk p.kind ^^^ hf p.fields

/-- The yield loop of `PatternFinder.patterns()`: walk the patterns of
the per-class buckets in order; yield a pattern only if no
equal pattern is in the `returned` set, then add it to the set. -/
def patternsYield : List Pattern → List Pattern → List Pattern
  | [], _ => []
  | p :: ps, returned =>
      if returned.any (fun q => Pattern.eq p q) then
        patternsYield ps returned
      else
        p :: patternsYield ps (p :: returned)

/-- Source `PatternFinder.patterns()` (no class or kind filter): all patterns
of all per-class buckets, deduplicated under pattern equality by the
`returned` set.  A pattern found from several involved classes occurs
in several buckets; the set keeps only the first occurrence. -/
def PatternFinder.patterns (buckets : List (List Pattern)) : List Pattern :=
  patternsYield buckets.flatten []

/-- Claim C3 helper: pattern equality unfolds to kind and field-tuple
equality. -/
theorem pattern_eq_iff (p q : Pattern) :
    Pattern.eq p q = true ↔ p.kind = q.kind ∧ p.fields = q.fields := by
  unfold Pattern.eq
  simp

/-- Claim C3 helper: pattern equality is symmetric. -/
theorem pattern_eq_symm (p q : Pattern) (h : Pattern.eq p q = true) :
    Pattern.eq q p = true := by
  rw [pattern_eq_iff] at h ⊢
  exact ⟨h.1.symm, h.2.symm⟩

/-- Claim C3 helper: everything yielded is unequal to every pattern
already in the `returned` set. -/
theorem patternsYield_not_returned (l R : List Pattern) :
    ∀ p ∈ patternsYield l R, ∀ q ∈ R, Pattern.eq p q = false := by
  induction l generalizing R with
  | nil => simp [patternsYield]
  | cons x xs ih =>
      intro p hp q hq
      unfold patternsYield at hp
      by_cases hmem : R.any (fun q => Pattern.eq x q) = true
      · rw [if_pos hmem] at hp
        exact ih R p hp q hq
      · rw [if_neg hmem] at hp
        rcases List.mem_cons.mp hp with rfl | hp2
        · rcases Bool.eq_false_or_eq_true (Pattern.eq p q) with h | h
          · exact absurd (List.any_eq_true.mpr ⟨q, hq, h⟩) hmem
          · exact h
        · exact ih (x :: R) p hp2 q (List.mem_cons_of_mem x hq)

/-- Claim C3 helper: the yield loop never yields two equal patterns. -/
theorem patternsYield_pairwise (l R : List Pattern) :
    List.Pairwise (fun p q => Pattern.eq p q = false) (patternsYield l R) := by
  induction l generalizing R with
  | nil => simp [patternsYield]
  | cons x xs ih =>
      unfold patternsYield
      by_cases hmem : R.any (fun q => Pattern.eq x q) = true
      · rw [if_pos hmem]
        exact ih R
      · rw [if_neg hmem]
        refine List.Pairwise.cons ?_ (ih (x :: R))
        intro y hy
        have hyx : Pattern.eq y x = false :=
          patternsYield_not_returned xs (x :: R) y hy x (List.mem_cons_self x R)
        rcases Bool.eq_false_or_eq_true (Pattern.eq x y) with h | h
        · exact absurd (pattern_eq_symm x y h) (by simp [hyx])
        · exact h

end UMLens

namespace UMLens

/-- **C3.** Pattern values are equal iff they have the same kind and
the same field tuple; hashing is consistent with this equality; and
`PatternFinder.patterns()` never yields two equal patterns, so a
pattern discovered from several involved classes (hence present in
several per-class buckets) is yielded only once. -/
theorem claim_C3_pattern_equality_dedup :
    (∀ p q : Pattern,
      (Pattern.eq p q = true ↔ p.kind = q.kind ∧ p.fields = q.fields)) ∧
    (∀ (hk : PatternKind → Nat) (hf : List PatternField → Nat)
       (p q : Pattern), Pattern.eq p q = true →
        Pattern.hashVal hk hf p = Pattern.hashVal hk hf q) ∧
    (∀ buckets : List (List Pattern),
      List.Pairwise (fun p q => Pattern.eq p q = false)
        (PatternFinder.patterns buckets)) := by
  refine ⟨pattern_eq_iff, ?_, ?_⟩
  · intro hk hf p q h
    rw [pattern_eq_iff] at h
    unfold Pattern.hashVal
    rw [h.1, h.2]
  · intro buckets
    exact patternsYield_pairwise buckets.flatten []

/-- **C3 witness.** Hash consistency applied to two equal singleton
patterns built from the same class; and the deduplicated yield of a
pattern present in two buckets. -/
theorem claim_C3_pattern_equality_dedup_witness :
    Pattern.hashVal (fun _ => 3) (fun f => f.length)
        { kind := PatternKind.singleton, fields := [PatternField.clsRef "S"] } =
      Pattern.hashVal (fun _ => 3) (fun f => f.length)
        { kind := PatternKind.singleton, fields := [PatternField.clsRef "S"] } :=
  claim_C3_pattern_equality_dedup.2.1 (fun _ => 3) (fun f => f.length)
    { kind := PatternKind.singleton, fields := [PatternField.clsRef "S"] }
    { kind := PatternKind.singleton, fields := [PatternField.clsRef "S"] }
    (by decide)

end UMLens

namespace UMLens

/-- A search node (`Node` in `app/cycle/search.py`): the node's class
and the chain of parent classes up to the root (innermost parent
first; the source keeps a parent pointer). -/
structure Node where
  cls : String
  parents : List String
deriving DecidableEq, Repr

/-- Source `Node.children`: one child per related class of the node's class
with the default query arguments (all kinds, LHS role), the current
node becoming the parent. -/
def Node.children (d : Diagram) (n : Node) : List Node :=
  (d.related_classes n.cls none RelRole.lhs none).map
    (fun c => { cls := c, parents := n.cls :: n.parents })

/-- Source `Node.path_to_root`: the classes from the root down to this node
(the source walks parent pointers then reverses). -/
def Node.path_to_root (n : Node) : List String :=
  (n.cls :: n.parents).reverse

/-- Classes appearing as the target of some relationship; every child
produced by `Node.children` carries such a class.  Used only by the
termination measure of the search loop. -/
def toClsFinset (d : Diagram) : Finset String :=
  (d.rels.map Relationship.to_cls).toFinset

/-- The classes of the nodes of a fringe, as a finite set.  Used only
by the termination measure of the search loop. -/
def fringeClsFinset (fringe : List Node) : Finset String :=
  (fringe.map Node.cls).toFinset

/-- Children carry target classes of relationships. -/
theorem children_cls_mem_toCls (d : Diagram) (n : Node) :
    ∀ m ∈ Node.children d n, m.cls ∈ toClsFinset d := by
  intro m hm
  unfold Node.children at hm
  rw [List.mem_map] at hm
  obtain ⟨c, hc, rfl⟩ := hm
  unfold Diagram.related_classes Diagram.relationships at hc
  rw [List.mem_map] at hc
  obtain ⟨r, hr, rfl⟩ := hc
  rw [List.mem_filter] at hr
  unfold toClsFinset
  rw [List.mem_toFinset, List.mem_map]
  refine ⟨r, List.mem_of_mem_filter hr.1, ?_⟩
  rw [if_pos hr.2]

end UMLens

namespace UMLens

/-- The while-loop of `Node.search`: pop the leftmost fringe node;
append it to the solutions when its class is the goal; when its class
is not in the closed set, add the class to the closed set and extend
the fringe with the node's children. -/
def searchLoop (d : Diagram) (goal : String) (fringe : List Node)
    (closed : List String) (solutions : List Node) : List Node :=
  match fringe with
  | [] => solutions
  | node :: rest =>
      let solutions2 :=
        if node.cls = goal then solutions ++ [node] else solutions
      if node.cls ∈ closed then
        searchLoop d goal rest closed solutions2
      else
        searchLoop d goal (rest ++ Node.children d node)
          (node.cls :: closed) solutions2
termination_by
  (((toClsFinset d ∪ fringeClsFinset fringe) \ closed.toFinset).card,
    fringe.length)
decreasing_by
  · have hsub : (toClsFinset d ∪ fringeClsFinset rest) \ closed.toFinset ⊆
        (toClsFinset d ∪ fringeClsFinset (node :: rest)) \ closed.toFinset := by
      apply Finset.sdiff_subset_sdiff _ (le_refl _)
      apply Finset.union_subset_union (le_refl _)
      unfold fringeClsFinset
      intro x hx
      rw [List.mem_toFinset] at hx ⊢
      exact List.mem_cons_of_mem _ hx
    rcases lt_or_eq_of_le (Finset.card_le_card hsub) with hlt | heq
    · exact Prod.Lex.left _ _ hlt
    · rw [heq]
      exact Prod.Lex.right _ (Nat.lt_succ_self _)
  · apply Prod.Lex.left
    apply Finset.card_lt_card
    rw [Finset.ssubset_iff_of_subset]
    · refine ⟨node.cls, ?_, ?_⟩
      · rw [Finset.mem_sdiff]
        constructor
        · apply Finset.mem_union_right
          unfold fringeClsFinset
          rw [List.mem_toFinset]
          exact List.mem_map_of_mem Node.cls (List.mem_cons_self _ _)
        · rw [List.mem_toFinset]
          assumption
      · rw [Finset.mem_sdiff, List.toFinset_cons]
        rintro ⟨-, habs⟩
        exact habs (Finset.mem_insert_self _ _)
    · intro x hx
      rw [Finset.mem_sdiff] at hx ⊢
      obtain ⟨hin, hout⟩ := hx
      rw [List.toFinset_cons] at hout
      constructor
      · rcases Finset.mem_union.mp hin with h | h
        · exact Finset.mem_union_left _ h
        · unfold fringeClsFinset at h
          rw [List.mem_toFinset, List.map_append, List.mem_append] at h
          rcases h with h | h
          · apply Finset.mem_union_right
            unfold fringeClsFinset
            rw [List.mem_toFinset, List.map_cons]
            exact List.mem_cons_of_mem _ h
          · apply Finset.mem_union_left
            rw [List.mem_map] at h
            obtain ⟨m, hm, rfl⟩ := h
            exact children_cls_mem_toCls d node m hm
      · intro habs
        exact hout (Finset.mem_insert_of_mem habs)

/-- Source `Node.search(goal)`: run the search loop with the node itself as
the initial fringe, empty closed set and no solutions. -/
def Node.search (d : Diagram) (n : Node) (goal : String) : List Node :=
  searchLoop d goal [n] [] []

/-- Addition of a candidate cycle to the cycle set of
`CycleFinder._find_cycles`: the Python `set.add` inserts the cycle
only when no equal cycle (under `Cycle.__eq__`) is present. -/
def insertCycle (s : List Cycle) (c : Cycle) : List Cycle :=
  if s.any (fun y => Cycle.eq c y) then s else s ++ [c]

/-- The body of the inner loop of `CycleFinder._find_cycles`: for each
solution, reconstruct the root path, `pop()` the final goal occurrence,
and add the remaining path to the cycle set when it is non-empty. -/
def processSolutions (acc : List Cycle) (sols : List Node) : List Cycle :=
  sols.foldl (fun acc sol =>
    let path := sol.path_to_root.dropLast
    if path.length ≠ 0 then
      insertCycle acc { involved_classes := path }
    else acc) acc

/-- Source `CycleFinder._find_cycles`, as the computed cycle set: for every
class of the diagram, search for paths from a root node bound to the
class back to the class itself, and accumulate the extracted cycles. -/
def cyclesOf (d : Diagram) : List Cycle :=
  d.classes.foldl (fun acc cls =>
    processSolutions acc
      (Node.search d { cls := cls.identifier, parents := [] }
        cls.identifier)) []

/-- The state of a `CycleFinder` instance: its diagram and the memo
set `_cycles`, initially empty. -/
structure CycleFinder where
  diagram : Diagram
  cycles : List Cycle
deriving DecidableEq, Repr

/-- Source `CycleFinder._find_cycles`: return immediately when the memo set
is non-empty (truthy), otherwise fill it. -/
def CycleFinder.find_cycles (f : CycleFinder) : CycleFinder :=
  if f.cycles ≠ [] then f else { f with cycles := cyclesOf f.diagram }

/-- Source `CycleFinder.cycles()`: run `_find_cycles`, then yield the memo
set; the call returns the yielded cycles and the updated state. -/
def CycleFinder.cyclesCall (f : CycleFinder) : List Cycle × CycleFinder :=
  let f2 := f.find_cycles
  (f2.cycles, f2)

end UMLens

namespace UMLens

/-- **C6.** Cycle finding is a total function of the diagram (it
cannot fail), and on an unchanged diagram every call to `cycles()`
after the first returns the same cycle set and leaves the finder state
fixed, whether or not the first computation latched a non-empty set:
memoisation is externally invisible. -/
theorem claim_C6_cycles_memoised (d : Diagram) :
    (CycleFinder.cyclesCall { diagram := d, cycles := [] }).1 = cyclesOf d ∧
    CycleFinder.cyclesCall
        (CycleFinder.cyclesCall { diagram := d, cycles := [] }).2 =
      CycleFinder.cyclesCall { diagram := d, cycles := [] } := by
  by_cases h : cyclesOf d = []
  · simp [CycleFinder.cyclesCall, CycleFinder.find_cycles, h]
  · simp [CycleFinder.cyclesCall, CycleFinder.find_cycles, h]

end UMLens

namespace UMLens

/-- The edge relation of the search graph: some relationship of the
diagram is oriented from `a` to `b`. -/
def Edge (d : Diagram) (a b : String) : Prop :=
  ∃ r ∈ d.rels, r.from_cls = a ∧ r.to_cls = b

/-- Membership in `related_classes` with the cycle search's default
arguments is exactly the edge relation. -/
theorem related_default_mem_iff (d : Diagram) (c x : String) :
    x ∈ d.related_classes c none RelRole.lhs none ↔ Edge d c x := by
  unfold Diagram.related_classes Diagram.relationships Edge
  rw [List.mem_map]
  constructor
  · rintro ⟨r, hr, rfl⟩
    rw [List.mem_filter] at hr
    refine ⟨r, List.mem_of_mem_filter hr.1, beq_iff_eq.mp hr.2, ?_⟩
    rw [if_pos hr.2]
  · rintro ⟨r, hr, hfrom, rfl⟩
    refine ⟨r, ?_, ?_⟩
    · rw [List.mem_filter, List.mem_filter]
      refine ⟨⟨hr, ?_⟩, ?_⟩
      · rw [Bool.or_eq_true, beq_iff_eq]
        exact Or.inl hfrom
      · rw [beq_iff_eq]
        exact hfrom
    · rw [if_pos (beq_iff_eq.mpr hfrom)]

/-- Membership in `Node.children`. -/
theorem children_mem_iff (d : Diagram) (n m : Node) :
    m ∈ Node.children d n ↔
      Edge d n.cls m.cls ∧ m.parents = n.cls :: n.parents := by
  unfold Node.children
  rw [List.mem_map]
  constructor
  · rintro ⟨c, hc, rfl⟩
    exact ⟨(related_default_mem_iff d n.cls c).mp hc, rfl⟩
  · rintro ⟨hedge, hpar⟩
    refine ⟨m.cls, (related_default_mem_iff d n.cls m.cls).mpr hedge, ?_⟩
    cases m
    simp_all

/-- Claim C5/C9 helper: solutions accumulate — everything already in
the solution list is in the result of the search loop. -/
theorem searchLoop_sols_subset (d : Diagram) (goal : String)
    (fringe : List Node) (closed : List String) (sols : List Node) :
    ∀ s ∈ sols, s ∈ searchLoop d goal fringe closed sols := by
  induction fringe, closed, sols using searchLoop.induct d goal with
  | case1 closed sols => intro s hs; rw [searchLoop]; exact hs
  | case2 closed sols node rest sols2 hmem ih =>
      intro s hs
      rw [searchLoop]
      simp only [if_pos hmem]
      apply ih
      by_cases hg : node.cls = goal
      · simp only [sols2, dif_pos hg]
        exact List.mem_append_left _ hs
      · simp only [sols2, dif_neg hg]
        exact hs
  | case3 closed sols node rest sols2 hmem ih =>
      intro s hs
      rw [searchLoop]
      simp only [if_neg hmem]
      apply ih
      by_cases hg : node.cls = goal
      · simp only [sols2, dif_pos hg]
        exact List.mem_append_left _ hs
      · simp only [sols2, dif_neg hg]
        exact hs

/-- Claim C5 helper: every fringe node whose class is the goal is
recorded as a solution — the closed set never prunes before the goal
check. -/
theorem searchLoop_goal_mem (d : Diagram) (goal : String)
    (fringe : List Node) (closed : List String) (sols : List Node) :
    ∀ n ∈ fringe, n.cls = goal →
      n ∈ searchLoop d goal fringe closed sols := by
  induction fringe, closed, sols using searchLoop.induct d goal with
  | case1 closed sols => intro n hn; cases hn
  | case2 closed sols node rest sols2 hmem ih =>
      intro n hn hg
      rw [searchLoop]
      simp only [if_pos hmem]
      rcases List.mem_cons.mp hn with rfl | hn2
      · apply searchLoop_sols_subset
        show n ∈ (if h : n.cls = goal then sols ++ [n] else sols)
        rw [dif_pos hg]
        exact List.mem_append_right _ (List.mem_singleton_self n)
      · exact ih n hn2 hg
  | case3 closed sols node rest sols2 hmem ih =>
      intro n hn hg
      rw [searchLoop]
      simp only [if_neg hmem]
      rcases List.mem_cons.mp hn with rfl | hn2
      · apply searchLoop_sols_subset
        show n ∈ (if h : n.cls = goal then sols ++ [n] else sols)
        rw [dif_pos hg]
        exact List.mem_append_right _ (List.mem_singleton_self n)
      · exact ih n (List.mem_append_left _ hn2) hg

end UMLens

namespace UMLens

/-- Invariant of a fringe node: its parent chain is linked by diagram
edges from parent to child, the parent classes are pairwise distinct
and all in the closed set, and the deepest element of the chain is the
search root. -/
def NodeInv (d : Diagram) (root : String) (closed : List String)
    (n : Node) : Prop :=
  List.Chain' (fun a b => Edge d b a) (n.cls :: n.parents) ∧
  n.parents.Nodup ∧
  (n.cls :: n.parents).getLast? = some root ∧
  ∀ x ∈ n.parents, x ∈ closed

/-- Invariant of every recorded solution: its class is the goal and
its chain satisfies the structural parts of the fringe invariant. -/
def SolInv (d : Diagram) (root goal : String) (n : Node) : Prop :=
  n.cls = goal ∧
  List.Chain' (fun a b => Edge d b a) (n.cls :: n.parents) ∧
  n.parents.Nodup ∧
  (n.cls :: n.parents).getLast? = some root

/-- Claim C9 helper: the search loop only returns solutions satisfying
`SolInv`, provided fringe and accumulated solutions satisfy their
invariants. -/
theorem searchLoop_sound (d : Diagram) (root goal : String)
    (fringe : List Node) (closed : List String) (sols : List Node) :
    (∀ n ∈ fringe, NodeInv d root closed n) →
    (∀ n ∈ sols, SolInv d root goal n) →
    ∀ n ∈ searchLoop d goal fringe closed sols, SolInv d root goal n := by
  induction fringe, closed, sols using searchLoop.induct d goal with
  | case1 closed sols =>
      intro _ hs n hn
      rw [searchLoop] at hn
      exact hs n hn
  | case2 closed sols node rest sols2 hmem ih =>
      intro hf hs n hn
      rw [searchLoop] at hn
      simp only [if_pos hmem] at hn
      have hs2 : ∀ m ∈ sols2, SolInv d root goal m := by
        show ∀ m ∈ (if h : node.cls = goal then sols ++ [node] else sols),
          SolInv d root goal m
        by_cases hg : node.cls = goal
        · rw [dif_pos hg]
          intro m hm
          rcases List.mem_append.mp hm with hm2 | hm2
          · exact hs m hm2
          · rw [List.mem_singleton] at hm2
            subst hm2
            obtain ⟨hch, hnd, hlast, -⟩ := hf m (List.mem_cons_self _ _)
            exact ⟨hg, hch, hnd, hlast⟩
        · rw [dif_neg hg]
          exact hs
      exact ih (fun m hm => hf m (List.mem_cons_of_mem _ hm)) hs2 n hn
  | case3 closed sols node rest sols2 hmem ih =>
      intro hf hs n hn
      rw [searchLoop] at hn
      simp only [if_neg hmem] at hn
      have hs2 : ∀ m ∈ sols2, SolInv d root goal m := by
        show ∀ m ∈ (if h : node.cls = goal then sols ++ [node] else sols),
          SolInv d root goal m
        by_cases hg : node.cls = goal
        · rw [dif_pos hg]
          intro m hm
          rcases List.mem_append.mp hm with hm2 | hm2
          · exact hs m hm2
          · rw [List.mem_singleton] at hm2
            subst hm2
            obtain ⟨hch, hnd, hlast, -⟩ := hf m (List.mem_cons_self _ _)
            exact ⟨hg, hch, hnd, hlast⟩
        · rw [dif_neg hg]
          exact hs
      have hf2 : ∀ m ∈ rest ++ Node.children d node,
          NodeInv d root (node.cls :: closed) m := by
        intro m hm
        rcases List.mem_append.mp hm with hm2 | hm2
        · obtain ⟨hch, hnd, hlast, hcl⟩ := hf m (List.mem_cons_of_mem _ hm2)
          exact ⟨hch, hnd, hlast,
            fun x hx => List.mem_cons_of_mem _ (hcl x hx)⟩
        · obtain ⟨hedge, hpar⟩ := (children_mem_iff d node m).mp hm2
          obtain ⟨hch, hnd, hlast, hcl⟩ := hf node (List.mem_cons_self _ _)
          unfold NodeInv
          rw [hpar]
          refine ⟨?_, ?_, ?_, ?_⟩
          · exact List.chain'_cons.mpr ⟨hedge, hch⟩
          · rw [List.nodup_cons]
            exact ⟨fun habs => hmem (hcl node.cls habs), hnd⟩
          · rw [List.getLast?_cons_cons]
            exact hlast
          · intro x hx
            rcases List.mem_cons.mp hx with rfl | hx2
            · exact List.mem_cons_self _ _
            · exact List.mem_cons_of_mem _ (hcl x hx2)
      exact ih hf2 hs2 n hn

end UMLens

namespace UMLens

/-- The structural property of an emitted cycle: a non-empty list of
pairwise distinct classes, consecutive ones linked by a relationship
oriented from the first to the second, with a wrap-around edge from
the last class back to the first. -/
def CycleOK (d : Diagram) (cyc : Cycle) : Prop :=
  ∃ p0 ps, cyc.involved_classes = p0 :: ps ∧
    (p0 :: ps).Nodup ∧
    List.Chain' (Edge d) ((p0 :: ps) ++ [p0])

/-- Claim C9 helper: a solution of the search rooted at its goal with
a non-empty popped path yields a structurally sound cycle. -/
theorem solInv_cycleOK (d : Diagram) (root : String) (sol : Node)
    (hsol : SolInv d root root sol)
    (hlen : sol.path_to_root.dropLast.length ≠ 0) :
    CycleOK d { involved_classes := sol.path_to_root.dropLast } := by
  obtain ⟨hcls, hch, hnd, hlast⟩ := hsol
  have hpath : sol.path_to_root.dropLast = sol.parents.reverse := by
    unfold Node.path_to_root
    rw [List.reverse_cons, List.dropLast_concat]
  rw [hpath] at hlen ⊢
  cases hrev : sol.parents.reverse with
  | nil => rw [hrev] at hlen; exact absurd rfl hlen
  | cons p0 ps =>
      have hplast : sol.parents.getLast? = some p0 := by
        rw [← List.head?_reverse, hrev]
        rfl
      have hpar_ne : sol.parents ≠ [] := by
        intro habs
        rw [habs] at hrev
        cases hrev
      have hp0 : p0 = root := by
        obtain ⟨q, qs, hq⟩ := List.exists_cons_of_ne_nil hpar_ne
        rw [hq] at hplast
        rw [hq, List.getLast?_cons_cons] at hlast
        rw [hlast] at hplast
        cases hplast
        rfl
      have hchain2 : List.Chain' (Edge d) ((sol.cls :: sol.parents).reverse) := by
        rw [List.chain'_reverse]
        exact hch
      rw [List.reverse_cons, hrev, hcls] at hchain2
      refine ⟨p0, ps, rfl, ?_, ?_⟩
      · rw [← hrev]
        exact List.nodup_reverse.mpr hnd
      · rw [hp0]
        rw [hp0] at hchain2
        exact hchain2

/-- Membership after insertion into the cycle set. -/
theorem insertCycle_mem (s : List Cycle) (c y : Cycle)
    (hy : y ∈ insertCycle s c) : y ∈ s ∨ y = c := by
  unfold insertCycle at hy
  by_cases hc : s.any (fun z => Cycle.eq c z) = true
  · rw [if_pos hc] at hy
    exact Or.inl hy
  · rw [if_neg hc] at hy
    rcases List.mem_append.mp hy with h | h
    · exact Or.inl h
    · exact Or.inr (List.mem_singleton.mp h)

/-- Claim C9 helper: processing the solutions of a root-goal search
preserves structural soundness of the accumulated cycle set. -/
theorem processSolutions_ok (d : Diagram) (root : String) (sols : List Node)
    (hsols : ∀ s ∈ sols, SolInv d root root s) :
    ∀ acc, (∀ cyc ∈ acc, CycleOK d cyc) →
      ∀ cyc ∈ processSolutions acc sols, CycleOK d cyc := by
  induction sols with
  | nil =>
      intro acc hacc cyc hcyc
      exact hacc cyc hcyc
  | cons s ss ih =>
      intro acc hacc cyc hcyc
      unfold processSolutions at hcyc
      rw [List.foldl_cons] at hcyc
      have hstep : ∀ c2 ∈ (if s.path_to_root.dropLast.length ≠ 0 then
          insertCycle acc { involved_classes := s.path_to_root.dropLast }
        else acc), CycleOK d c2 := by
        by_cases hl : s.path_to_root.dropLast.length ≠ 0
        · rw [if_pos hl]
          intro c2 hc2
          rcases insertCycle_mem _ _ _ hc2 with h | h
          · exact hacc c2 h
          · rw [h]
            exact solInv_cycleOK d root s (hsols s (List.mem_cons_self _ _)) hl
        · rw [if_neg hl]
          exact hacc
      exact ih (fun t ht => hsols t (List.mem_cons_of_mem _ ht)) _ hstep cyc hcyc

/-- Claim C9 helper: the search started from a root node bound to a
class returns only solutions satisfying `SolInv` for that class as
both root and goal. -/
theorem search_root_sound (d : Diagram) (c : String) :
    ∀ s ∈ Node.search d { cls := c, parents := [] } c,
      SolInv d c c s := by
  apply searchLoop_sound
  · intro n hn
    rw [List.mem_singleton] at hn
    subst hn
    refine ⟨List.chain'_singleton _, List.nodup_nil, rfl, ?_⟩
    intro x hx
    cases hx
  · intro n hn
    cases hn

/-- Claim C9 helper: every cycle in the computed set is structurally
sound. -/
theorem cyclesOf_ok (d : Diagram) :
    ∀ cyc ∈ cyclesOf d, CycleOK d cyc := by
  unfold cyclesOf
  suffices h : ∀ (l : List Class) (acc : List Cycle),
      (∀ cyc ∈ acc, CycleOK d cyc) →
      ∀ cyc ∈ l.foldl (fun acc cls =>
        processSolutions acc
          (Node.search d { cls := cls.identifier, parents := [] }
            cls.identifier)) acc, CycleOK d cyc by
    intro cyc hcyc
    exact h d.classes [] (fun c hc => absurd hc (List.not_mem_nil c)) cyc hcyc
  intro l
  induction l with
  | nil =>
      intro acc hacc cyc hcyc
      rw [List.foldl_nil] at hcyc
      exact hacc cyc hcyc
  | cons cls rest ih =>
      intro acc hacc cyc hcyc
      rw [List.foldl_cons] at hcyc
      refine ih _ ?_ cyc hcyc
      exact processSolutions_ok d cls.identifier _
        (search_root_sound d cls.identifier) acc hacc

end UMLens

namespace UMLens

/-- **C9.** Every cycle yielded by `CycleFinder.cycles()` has a
non-empty list of pairwise distinct involved classes, and for each
consecutive pair — including the wrap-around from the last class back
to the first — the diagram contains a relationship oriented from the
first class to the second. -/
theorem claim_C9_cycle_invariants (d : Diagram) (cyc : Cycle)
    (hmem : cyc ∈ cyclesOf d) :
    ∃ p0 ps, cyc.involved_classes = p0 :: ps ∧
      (p0 :: ps).Nodup ∧
      List.Chain' (Edge d) ((p0 :: ps) ++ [p0]) :=
  cyclesOf_ok d cyc hmem

end UMLens

namespace UMLens

/-- Cycle equality is reflexive (rotation by zero). -/
theorem cycle_eq_refl (c : Cycle) : Cycle.eq c c = true :=
  (cycle_eq_iff_rotate c c).mpr ⟨0, (List.rotate_zero _).symm⟩

/-- Cycle equality is symmetric (rotations invert). -/
theorem cycle_eq_symm (a b : Cycle) (h : Cycle.eq a b = true) :
    Cycle.eq b a = true := by
  obtain ⟨k, hk⟩ := (cycle_eq_iff_rotate a b).mp h
  have hrot : List.IsRotated a.involved_classes b.involved_classes :=
    ⟨k, hk.symm⟩
  obtain ⟨m, hm⟩ := hrot.symm
  exact (cycle_eq_iff_rotate b a).mpr ⟨m, hm.symm⟩

/-- Inserting never removes cycles from the set. -/
theorem insertCycle_subset (s : List Cycle) (c : Cycle) :
    ∀ y ∈ s, y ∈ insertCycle s c := by
  intro y hy
  unfold insertCycle
  by_cases hc : s.any (fun z => Cycle.eq c z) = true
  · rw [if_pos hc]; exact hy
  · rw [if_neg hc]; exact List.mem_append_left _ hy

/-- After inserting a cycle, the set contains a cycle equal to it. -/
theorem insertCycle_mem_eq (s : List Cycle) (c : Cycle) :
    ∃ y ∈ insertCycle s c, Cycle.eq y c = true := by
  unfold insertCycle
  by_cases hc : s.any (fun z => Cycle.eq c z) = true
  · rw [if_pos hc]
    obtain ⟨y, hy, hyeq⟩ := List.any_eq_true.mp hc
    exact ⟨y, hy, cycle_eq_symm c y hyeq⟩
  · rw [if_neg hc]
    exact ⟨c, List.mem_append_right _ (List.mem_singleton_self c),
      cycle_eq_refl c⟩

/-- Processing solutions never removes cycles from the set. -/
theorem processSolutions_subset (sols : List Node) :
    ∀ acc, ∀ y ∈ acc, y ∈ processSolutions acc sols := by
  induction sols with
  | nil => intro acc y hy; exact hy
  | cons s ss ih =>
      intro acc y hy
      unfold processSolutions
      rw [List.foldl_cons]
      apply ih
      by_cases hl : s.path_to_root.dropLast.length ≠ 0
      · simp only [if_pos hl]
        exact insertCycle_subset _ _ y hy
      · simp only [if_neg hl]
        exact hy

/-- Claim C5 helper: processing a solution list containing a solution
with non-empty popped path leaves an equal cycle in the set. -/
theorem processSolutions_hit (sols : List Node) (sol : Node)
    (hsol : sol ∈ sols) (hlen : sol.path_to_root.dropLast.length ≠ 0) :
    ∀ acc, ∃ y ∈ processSolutions acc sols,
      Cycle.eq y { involved_classes := sol.path_to_root.dropLast } = true := by
  induction sols with
  | nil => cases hsol
  | cons s ss ih =>
      intro acc
      unfold processSolutions
      rw [List.foldl_cons]
      rcases List.mem_cons.mp hsol with rfl | hmem
      · simp only [if_pos hlen]
        obtain ⟨y, hy, hyeq⟩ := insertCycle_mem_eq acc
          { involved_classes := sol.path_to_root.dropLast }
        exact ⟨y, processSolutions_subset ss _ y hy, hyeq⟩
      · exact ih hmem _

/-- Claim C5 helper: a self-loop edge makes the node one step below
the root (with the root as its only parent) a recorded solution of the
search rooted and aimed at the same class. -/
theorem search_selfloop_sol (d : Diagram) (c : String) (hr : Edge d c c) :
    ({ cls := c, parents := [c] } : Node) ∈
      Node.search d { cls := c, parents := [] } c := by
  unfold Node.search
  rw [searchLoop]
  have hnotmem : ({ cls := c, parents := [] } : Node).cls ∉ ([] : List String) :=
    fun h => absurd h (List.not_mem_nil _)
  simp only [if_neg hnotmem, List.nil_append]
  apply searchLoop_goal_mem
  · rw [children_mem_iff]
    exact ⟨hr, rfl⟩
  · rfl

/-- The outer fold of `_find_cycles` never removes cycles. -/
theorem cyclesFold_subset (d : Diagram) (l : List Class) :
    ∀ acc, ∀ y ∈ acc, y ∈ l.foldl (fun acc cls =>
      processSolutions acc
        (Node.search d { cls := cls.identifier, parents := [] }
          cls.identifier)) acc := by
  induction l with
  | nil => intro acc y hy; exact hy
  | cons cls rest ih =>
      intro acc y hy
      rw [List.foldl_cons]
      exact ih _ y (processSolutions_subset _ _ y hy)

/-- Claim C5 helper: with a self-loop on a class of the diagram, the
computed cycle set contains the one-class cycle of that class. -/
theorem cyclesOf_self_loop (d : Diagram) (c : String)
    (hcls : ∃ cl ∈ d.classes, cl.identifier = c)
    (hr : ∃ r ∈ d.rels, r.from_cls = c ∧ r.to_cls = c) :
    ({ involved_classes := [c] } : Cycle) ∈ cyclesOf d := by
  have hedge : Edge d c c := hr
  obtain ⟨cl, hclmem, hclid⟩ := hcls
  obtain ⟨l1, l2, hsplit⟩ := List.append_of_mem hclmem
  have hpath : ({ cls := c, parents := [c] } : Node).path_to_root.dropLast
      = [c] := by
    unfold Node.path_to_root
    rfl
  have hhit : ∀ acc, ∃ y ∈ processSolutions acc
      (Node.search d { cls := cl.identifier, parents := [] } cl.identifier),
      Cycle.eq y { involved_classes := [c] } = true := by
    intro acc
    rw [hclid]
    have := processSolutions_hit
      (Node.search d { cls := c, parents := [] } c)
      { cls := c, parents := [c] }
      (search_selfloop_sol d c hedge)
      (by rw [hpath]; exact one_ne_zero) acc
    rw [hpath] at this
    exact this
  have hstep : ∃ y ∈ cyclesOf d,
      Cycle.eq y { involved_classes := [c] } = true := by
    unfold cyclesOf
    rw [hsplit, List.foldl_append, List.foldl_cons]
    obtain ⟨y, hy, hyeq⟩ := hhit (l1.foldl (fun acc cls =>
      processSolutions acc
        (Node.search d { cls := cls.identifier, parents := [] }
          cls.identifier)) [])
    exact ⟨y, cyclesFold_subset d l2 _ y hy, hyeq⟩
  obtain ⟨y, hy, hyeq⟩ := hstep
  obtain ⟨k, hk⟩ := (cycle_eq_iff_rotate y { involved_classes := [c] }).mp hyeq
  have hylen : y.involved_classes.length = 1 := by
    have := congrArg List.length hk
    rw [List.length_rotate] at this
    exact this.symm
  obtain ⟨x, hx⟩ := List.length_eq_one.mp hylen
  rw [hx, List.rotate_singleton] at hk
  have hk2 : [c] = [x] := hk
  have hxc : x = c := by
    cases hk2
    rfl
  have hinv : y.involved_classes = [c] := by rw [hx, hxc]
  have hyc : y = { involved_classes := [c] } := by rw [← hinv]
  rw [← hyc]
  exact hy

end UMLens

namespace UMLens

/-- **C5.** If the diagram contains a relationship whose `from_cls`
and `to_cls` are the same class `c` of the diagram (a self-loop), then
the cycle set of `CycleFinder.cycles()` includes the single-element
cycle `[c]`: the search rooted at `c` reaches the goal `c` through the
loop edge, the reconstructed root path minus the final goal occurrence
is `[c]` of length 1, and it is emitted. -/
theorem claim_C5_self_loop_cycle (d : Diagram) (c : String)
    (hcls : ∃ cl ∈ d.classes, cl.identifier = c)
    (hr : ∃ r ∈ d.rels, r.from_cls = c ∧ r.to_cls = c) :
    ({ involved_classes := [c] } : Cycle) ∈ cyclesOf d :=
  cyclesOf_self_loop d c hcls hr

/-- Concrete one-class diagram with a self-loop, used by witnesses. -/
def diagramLoop : Diagram :=
  { classes := [plainClass "C"],
    rels := [{ identifier := "r1", rel_type := RelType.dependency,
               from_cls := "C", to_cls := "C" }] }

/-- **C5 witness.** The self-loop theorem applied to the concrete
one-class diagram. -/
theorem claim_C5_self_loop_cycle_witness :
    ({ involved_classes := ["C"] } : Cycle) ∈ cyclesOf diagramLoop :=
  claim_C5_self_loop_cycle diagramLoop "C"
    ⟨plainClass "C", by decide, by decide⟩
    ⟨{ identifier := "r1", rel_type := RelType.dependency,
       from_cls := "C", to_cls := "C" }, by decide, by decide, by decide⟩

/-- **C9 witness.** The invariants instantiated on the cycle found in
the concrete self-loop diagram. -/
theorem claim_C9_cycle_invariants_witness :
    ∃ p0 ps, (({ involved_classes := ["C"] } : Cycle)).involved_classes
        = p0 :: ps ∧
      (p0 :: ps).Nodup ∧
      List.Chain' (Edge diagramLoop) ((p0 :: ps) ++ [p0]) :=
  claim_C9_cycle_invariants diagramLoop { involved_classes := ["C"] }
    (cyclesOf_self_loop diagramLoop "C"
      ⟨plainClass "C", by decide, by decide⟩
      ⟨{ identifier := "r1", rel_type := RelType.dependency,
         from_cls := "C", to_cls := "C" }, by decide, by decide, by decide⟩)

end UMLens

namespace UMLens

/-- Source `Diagram.ancestors(cls)`: for each superclass, yield it, then
recurse into it.  The source recursion carries no visited set or other
guard, so it is embedded with an explicit fuel bound; `none` records
that the recursion depth exceeded the fuel (the Python call would
still be recursing). -/
def ancestorsFuel (d : Diagram) : Nat → String → Option (List String)
  | 0, _ => none
  | fuel + 1, c =>
      (d.super_classes c none).foldlM
        (fun acc c2 =>
          (ancestorsFuel d fuel c2).map (fun rest => acc ++ c2 :: rest)) []

/-- Source `Diagram.inheritance_depth(cls, start_depth)`: start from
`start_depth` and take the maximum over superclasses of the recursive
depth with `start_depth + 1`; fuel-bounded like `ancestors`. -/
def inheritance_depthFuel (d : Diagram) :
    Nat → String → Nat → Option Nat
  | 0, _, _ => none
  | fuel + 1, c, start_depth =>
      (d.super_classes c none).foldlM
        (fun depth c2 =>
          (inheritance_depthFuel d fuel c2 (start_depth + 1)).map
            (fun v => max v depth)) start_depth

/-- The method list of the class element with the given identifier
(`cls.methods` on a class reached through a relationship endpoint). -/
def clsMethods (d : Diagram) (c : String) : List Method :=
  match d.classes.find? (fun cl => cl.identifier == c) with
  | none => []
  | some cl => cl.methods

/-- Source `Diagram.methods(cls)`: the class's own methods, then recursively
the methods of its interfaces and superclasses; fuel-bounded like
`ancestors`. -/
def methodsFuel (d : Diagram) : Nat → String → Option (List Method)
  | 0, _ => none
  | fuel + 1, c =>
      (d.interfaces c none ++ d.super_classes c none).foldlM
        (fun acc c2 => (methodsFuel d fuel c2).map (fun ms => acc ++ ms))
        (clsMethods d c)

/-- A chain of classes each produced from the previous one by the
step function (the upward walks of the recursive queries). -/
def IsChain (step : String → List String) : String → List String → Prop
  | _, [] => True
  | c, x :: xs => x ∈ step c ∧ IsChain step x xs

/-- A fold over `Option` succeeds when every element's step succeeds
regardless of the accumulator. -/
theorem foldlM_option_isSome {α β : Type} (f : β → α → Option β)
    (l : List α) :
    (∀ a ∈ l, ∀ b2 : β, (f b2 a).isSome) →
    ∀ b : β, (l.foldlM f b).isSome := by
  induction l with
  | nil => intro _ b; rfl
  | cons a l2 ih =>
      intro h b
      rw [List.foldlM_cons]
      have ha := h a (List.mem_cons_self _ _) b
      cases hfa : f b a with
      | none => rw [hfa] at ha; cases ha
      | some b2 =>
          show (List.foldlM f b2 l2).isSome = true
          exact ih (fun x hx b3 => h x (List.mem_cons_of_mem _ hx) b3) b2

/-- Claim C10 helper: `ancestors` terminates under bounded
generalization chains. -/
theorem ancestorsFuel_isSome (d : Diagram) :
    ∀ (n : Nat) (c : String),
      (∀ l, IsChain (fun x => d.super_classes x none) c l →
        l.length ≤ n) →
      (ancestorsFuel d (n + 1) c).isSome := by
  intro n
  induction n with
  | zero =>
      intro c hbound
      rw [ancestorsFuel]
      cases hsup : d.super_classes c none with
      | nil => rfl
      | cons x xs =>
          have hch : IsChain (fun x => d.super_classes x none) c [x] :=
            ⟨by show x ∈ d.super_classes c none
                rw [hsup]
                exact List.mem_cons_self _ _, trivial⟩
          have := hbound [x] hch
          simp at this
  | succ m ih =>
      intro c hbound
      rw [ancestorsFuel]
      apply foldlM_option_isSome
      intro c2 hc2 acc
      rw [Option.isSome_map']
      apply ih
      intro l hl
      have hch : IsChain (fun x => d.super_classes x none) c (c2 :: l) :=
        ⟨hc2, hl⟩
      have := hbound (c2 :: l) hch
      rw [List.length_cons] at this
      omega

/-- Claim C10 helper: `inheritance_depth` terminates under bounded
generalization chains, for every starting depth. -/
theorem inheritance_depthFuel_isSome (d : Diagram) :
    ∀ (n : Nat) (c : String) (start_depth : Nat),
      (∀ l, IsChain (fun x => d.super_classes x none) c l →
        l.length ≤ n) →
      (inheritance_depthFuel d (n + 1) c start_depth).isSome := by
  intro n
  induction n with
  | zero =>
      intro c start_depth hbound
      rw [inheritance_depthFuel]
      cases hsup : d.super_classes c none with
      | nil => rfl
      | cons x xs =>
          have hch : IsChain (fun x => d.super_classes x none) c [x] :=
            ⟨by show x ∈ d.super_classes c none
                rw [hsup]
                exact List.mem_cons_self _ _, trivial⟩
          have := hbound [x] hch
          simp at this
  | succ m ih =>
      intro c start_depth hbound
      rw [inheritance_depthFuel]
      apply foldlM_option_isSome
      intro c2 hc2 acc
      rw [Option.isSome_map']
      apply ih
      intro l hl
      have hch : IsChain (fun x => d.super_classes x none) c (c2 :: l) :=
        ⟨hc2, hl⟩
      have := hbound (c2 :: l) hch
      rw [List.length_cons] at this
      omega

/-- Claim C10 helper: `methods` terminates under bounded hierarchical
(realization and generalization) chains. -/
theorem methodsFuel_isSome (d : Diagram) :
    ∀ (n : Nat) (c : String),
      (∀ l, IsChain
          (fun x => d.interfaces x none ++ d.super_classes x none) c l →
        l.length ≤ n) →
      (methodsFuel d (n + 1) c).isSome := by
  intro n
  induction n with
  | zero =>
      intro c hbound
      rw [methodsFuel]
      cases hsup : d.interfaces c none ++ d.super_classes c none with
      | nil => rfl
      | cons x xs =>
          have hch : IsChain
              (fun x => d.interfaces x none ++ d.super_classes x none)
              c [x] :=
            ⟨by show x ∈ d.interfaces c none ++ d.super_classes c none
                rw [hsup]
                exact List.mem_cons_self _ _, trivial⟩
          have := hbound [x] hch
          simp at this
  | succ m ih =>
      intro c hbound
      rw [methodsFuel]
      apply foldlM_option_isSome
      intro c2 hc2 acc
      rw [Option.isSome_map']
      apply ih
      intro l hl
      have hch : IsChain
          (fun x => d.interfaces x none ++ d.super_classes x none)
          c (c2 :: l) := ⟨hc2, hl⟩
      have := hbound (c2 :: l) hch
      rw [List.length_cons] at this
      omega

/-- Diagram with a Generalization self-loop: the recursive queries
diverge on it because no guard other than graph acyclicity bounds
them. -/
def diagramGenLoop : Diagram :=
  { classes := [plainClass "A"],
    rels := [{ identifier := "g1",
               rel_type := RelType.generalization,
               from_cls := "A", to_cls := "A" }] }

/-- Claim C10 helper: on the self-loop, `ancestors` exhausts any
fuel. -/
theorem ancestorsFuel_loop_none :
    ∀ fuel, ancestorsFuel diagramGenLoop fuel "A" = none := by
  intro fuel
  induction fuel with
  | zero => rfl
  | succ m ih =>
      rw [ancestorsFuel]
      have hsup : diagramGenLoop.super_classes "A" none = ["A"] := rfl
      rw [hsup, List.foldlM_cons, ih]
      rfl

/-- Claim C10 helper: on the self-loop, `inheritance_depth` exhausts
any fuel. -/
theorem inheritance_depthFuel_loop_none :
    ∀ fuel start_depth,
      inheritance_depthFuel diagramGenLoop fuel "A" start_depth = none := by
  intro fuel
  induction fuel with
  | zero => intro sd; rfl
  | succ m ih =>
      intro sd
      rw [inheritance_depthFuel]
      have hsup : diagramGenLoop.super_classes "A" none = ["A"] := rfl
      rw [hsup, List.foldlM_cons, ih (sd + 1)]
      rfl

/-- Claim C10 helper: on the self-loop, `methods` exhausts any fuel. -/
theorem methodsFuel_loop_none :
    ∀ fuel, methodsFuel diagramGenLoop fuel "A" = none := by
  intro fuel
  induction fuel with
  | zero => rfl
  | succ m ih =>
      rw [methodsFuel]
      have hsup : diagramGenLoop.interfaces "A" none ++
          diagramGenLoop.super_classes "A" none = ["A"] := rfl
      rw [hsup, List.foldlM_cons, ih]
      rfl

end UMLens

namespace UMLens

/-- **C10.** The recursive queries `ancestors`, `inheritance_depth`
and `methods` terminate for every class whose upward subgraph —
Generalization edges for the first two, Realization and Generalization
edges for `methods` — is acyclic, here expressed as a bound on the
length of every upward chain (equivalent to acyclicity of the finite
reachable subgraph); and no other guard bounds these recursions: on a
Generalization self-loop all three exhaust every fuel bound. -/
theorem claim_C10_recursive_query_termination :
    (∀ (d : Diagram) (n : Nat) (c : String),
      (∀ l, IsChain (fun x => d.super_classes x none) c l →
        l.length ≤ n) →
      (ancestorsFuel d (n + 1) c).isSome) ∧
    (∀ (d : Diagram) (n : Nat) (c : String) (start_depth : Nat),
      (∀ l, IsChain (fun x => d.super_classes x none) c l →
        l.length ≤ n) →
      (inheritance_depthFuel d (n + 1) c start_depth).isSome) ∧
    (∀ (d : Diagram) (n : Nat) (c : String),
      (∀ l, IsChain
          (fun x => d.interfaces x none ++ d.super_classes x none) c l →
        l.length ≤ n) →
      (methodsFuel d (n + 1) c).isSome) ∧
    (∀ fuel, ancestorsFuel diagramGenLoop fuel "A" = none) ∧
    (∀ fuel start_depth,
      inheritance_depthFuel diagramGenLoop fuel "A" start_depth = none) ∧
    (∀ fuel, methodsFuel diagramGenLoop fuel "A" = none) :=
  ⟨ancestorsFuel_isSome, inheritance_depthFuel_isSome, methodsFuel_isSome,
   ancestorsFuel_loop_none, inheritance_depthFuel_loop_none,
   methodsFuel_loop_none⟩

/-- **C10 witness.** Termination applied on the one-edge acyclic
diagram of claim C1 at the class with no superclass, with chain bound
zero. -/
theorem claim_C10_recursive_query_termination_witness :
    (ancestorsFuel diagramC1 1 "A").isSome ∧
    (inheritance_depthFuel diagramC1 1 "A" 0).isSome ∧
    (methodsFuel diagramC1 1 "A").isSome :=
  ⟨claim_C10_recursive_query_termination.1 diagramC1 0 "A"
      (fun l hl => by
        cases l with
        | nil => simp
        | cons x xs =>
            exact absurd (hl.1 : x ∈ ([] : List String))
              (List.not_mem_nil x)),
   claim_C10_recursive_query_termination.2.1 diagramC1 0 "A" 0
      (fun l hl => by
        cases l with
        | nil => simp
        | cons x xs =>
            exact absurd (hl.1 : x ∈ ([] : List String))
              (List.not_mem_nil x)),
   claim_C10_recursive_query_termination.2.2.1 diagramC1 0 "A"
      (fun l hl => by
        cases l with
        | nil => simp
        | cons x xs =>
            exact absurd (hl.1 : x ∈ ([] : List String))
              (List.not_mem_nil x))⟩

end UMLens
